import Mathlib

/-!
Shallow embedding of the Y-fast-trie-style predecessor index
(`YTrie.cpp` of DAL3X/AdvancedDataStructures) and proofs about it.

Modelling conventions:
* `uint64_t` keys are `Nat`; `int64_t` quantities that stay non-negative in
  every defined execution are `Nat`, the ones that can go negative
  (the binary-search bounds `lowRange`/`highRange`) are `Int`.
* `std::unordered_map<std::string, TrieNode*> lookup_` is an association
  list `Table`; a stored `TrieNode*` is `Option TrieNode` (`none` models a
  null pointer).  Trie paths ("0"/"1" strings) are `List Bool`
  (`false` = "0"/left, `true` = "1"/right).  All paths inserted during
  construction are pairwise distinct, so the first-match lookup of the
  association list agrees with the hash map.
* `TrieNode` objects for representatives carry a value, a doubly linked
  list position and a balanced search tree over the block; we keep the
  representatives in construction order in a list, so a representative
  pointer is an index into that list, `previous`/`next` are index-1/index+1,
  and the node variants `Leaf`/`Split` store indices.
* loops are rendered as fueled structural recursions; in each case the fuel
  provably dominates the number of iterations of the C++ loop, so the
  rendering computes the same result while staying kernel-reducible.
-/

/-- A trie node as stored in the lookup table: a leaf referencing one
representative (by index into the representative list), or an inner
`Split` node with optional `leftMax` / `rightMin` representative indices
(`none` models a null `TrieNode*`). -/
inductive TrieNode : Type where
  | leaf (rep : Nat) : TrieNode
  | split (leftMax rightMin : Option Nat) : TrieNode
deriving DecidableEq, Repr

/-- The lookup table `lookup_`: trie path to stored node pointer. -/
abbrev Table : Type := List (List Bool × Option TrieNode)

/-- Structural-recursion rendering of the integer part of `log2`
(fuel-bounded halving); `log2Floor n n = Nat.log2 n` (proved below). -/
def log2Floor (fuel : Nat) (n : Nat) : Nat :=
  match fuel with
  | 0 => 0
  | f + 1 => if 2 ≤ n then log2Floor f (n / 2) + 1 else 0

/-- Depth selector `calcDepth`: the C++ computes `(int64_t)std::floor(std::log2(values.back()))`,
the bit length (minus one) of the largest (= last) input value.  For the
argument range where the double computation is exact this is the integer
base-2 logarithm, which we compute structurally. -/
def calcDepth (values : List Nat) : Nat :=
  log2Floor (values.getLastD 0) (values.getLastD 0)

/-- Group builder `constructBST`: isolates the group of `groupSize` values ending at
`position` (inclusive), i.e. `values[position-groupSize+1 .. position]`;
the `BST` built from that group is modelled by its sorted key list. -/
def constructBST (position : Nat) (groupSize : Nat) (values : List Nat) : List Nat :=
  (values.drop (position + 1 - groupSize)).take groupSize

/-- The loop of `YTrie::split`: walks `i = depth-1, i+depth, ...` while
`i < values.size()`, recording a representative `(values[i], block)` per
full window.  The C++ index is a signed `int64_t` compared against an
unsigned size (so a negative index, which occurs exactly when `depth = 0`,
ends the loop); hence the index is `Int` and the guard includes `0 ≤ i`.
Fuel: the loop advances by `depth ≥ 1` per iteration, so `values.length`
iterations dominate every terminating C++ run. -/
def splitLoop (depth : Nat) (values : List Nat) (fuel : Nat) (i : Int) :
    List (Nat × List Nat) :=
  match fuel with
  | 0 => []
  | f + 1 =>
    if 0 ≤ i ∧ i < values.length then
      (values.getD i.toNat 0, constructBST i.toNat depth values) ::
        splitLoop depth values f (i + depth)
    else []

/-- Splitter `YTrie::split`: regular representatives for each full window of size
`depth`, plus (when `n mod depth ≠ 0`) one irregular representative for the
trailing `n mod depth` values, whose key is `values.back()`. -/
def split (depth : Nat) (values : List Nat) : List (Nat × List Nat) :=
  splitLoop depth values values.length ((depth : Int) - 1) ++
    (if values.length % depth ≠ 0 then
      [(values.getLastD 0,
        constructBST (values.length - 1) (values.length % depth) values)]
    else [])

/-- The scan over `[i, hi]` inside `YTrie::constructTrie`: subtracts
`s = 2^exponent` from every representative value ≥ `s` and records the
first such index (`found`, the split point).  Fuel `hi + 1 - i` dominates
the iteration count. -/
def stripLoop (fuel : Nat) (vals : List Nat) (s : Nat) (i hi : Nat)
    (found : Option Nat) : List Nat × Option Nat :=
  match fuel with
  | 0 => (vals, found)
  | f + 1 =>
    if i ≤ hi then
      if s ≤ vals.getD i 0 then
        stripLoop f (vals.set i (vals.getD i 0 - s)) s (i + 1) hi
          (if found.isSome then found else some i)
      else stripLoop f vals s (i + 1) hi found
    else (vals, found)

/-- The bit-stripping scan of one `constructTrie` call on window `[lo, hi]`
with `split = 2^e`. -/
def stripAt (e lo hi : Nat) (vals : List Nat) : List Nat × Option Nat :=
  stripLoop (hi + 1 - lo) vals (2 ^ e) lo hi none

/-- The `splitIndex`: the first window index whose value reached `2^e`, or
`rightRange + 1` when none did. -/
def splitIndexOf (found : Option Nat) (hi : Nat) : Nat :=
  found.getD (hi + 1)

/-- The inner node created by one `constructTrie` call: when a split point
`i` was found, `leftMax` is the representative before it (null when the
split point is at `leftRange`) and `rightMin` the one at it; when none was
found the whole window routes left and `leftMax` is patched to the
representative at `rightRange`. -/
def splitNodeOf (found : Option Nat) (lo hi : Nat) : TrieNode :=
  match found with
  | some i => TrieNode.split (if i = lo then none else some (i - 1)) (some i)
  | none => TrieNode.split (some hi) none

/-- Trie builder `YTrie::constructTrie`, structural in `e1 = exponent + 1` (the C++
`exponent` runs from `depth` down to `-1`; `e1 = 0` is the leaf step).
Inner step: strip the `2^e` bit in the window, insert the `Split` node at
the current path, then recurse left on `[leftRange, splitIndex-1]` and
right on `[splitIndex, rightRange]` when those windows are non-empty,
threading the mutated value vector through.
Leaf step: the C++ selects by
`bitHistory.compare(bitHistory.size(), 1, "0")`, which compares the empty
substring that starts at position `size()` against `"0"`; that comparison
is never 0, so the `representatives[rightRange]` branch is always taken. -/
def constructTrie (e1 : Nat) (bitHistory : List Bool) (leftRange rightRange : Nat)
    (vals : List Nat) (lookup : Table) : List Nat × Table :=
  match e1 with
  | 0 =>
    (vals, (bitHistory, some (TrieNode.leaf rightRange)) :: lookup)
  | e + 1 =>
    let p := stripAt e leftRange rightRange vals
    let si := splitIndexOf p.2 rightRange
    let L1 : Table :=
      (bitHistory, some (splitNodeOf p.2 leftRange rightRange)) :: lookup
    let r1 :=
      if leftRange < si then
        constructTrie e (bitHistory ++ [false]) leftRange (si - 1) p.1 L1
      else (p.1, L1)
    if si ≤ rightRange then
      constructTrie e (bitHistory ++ [true]) si rightRange r1.1 r1.2
    else r1

/-- The whole index: depth, representative list (key and block per
representative, in `next`-order), and the path-keyed lookup table. -/
structure YTrie : Type where
  depth : Nat
  reps : List (Nat × List Nat)
  lookup : Table
deriving DecidableEq, Repr

/-- The `YTrie` constructor: compute the depth, split the values into
representative blocks, collect the representative values, and build the
trie over them starting from `exponent = depth`, path `""`, full range. -/
def buildYTrie (values : List Nat) : YTrie :=
  let depth := calcDepth values
  let reps := split depth values
  let repValues := reps.map Prod.fst
  ⟨depth, reps, (constructTrie (depth + 1) [] 0 (reps.length - 1) repValues []).2⟩

/-- Modelled from the spec: the repository's `BST` class (the per-block
search tree) is not under `src/`; only its call sites are.  Spec §4.3 gives
its contract: `predecessor(lowerBound, limit)` returns the largest key
stored in the block that is ≤ `limit`, and returns `lowerBound` unchanged
when no stored key qualifies.  Blocks are ordered runs of the sorted input
(§4.3 `build(keys: ordered, size ≤ d)`), so the largest qualifying key is
the last one of the filtered list. -/
def bstPredecessor (keys : List Nat) (lowerBound : Nat) (limit : Nat) : Nat :=
  (keys.filter (fun k => k ≤ limit)).getLastD lowerBound

/-- The low `depth + 1` bits of `limit`, most significant first
(`std::bitset<64>(limit).to_string().substr(64-(depth_+1))`). -/
def toBits (limit : Nat) (d : Nat) : List Bool :=
  (List.range (d + 1)).map (fun j => decide (limit / 2 ^ (d - j) % 2 = 1))

/-- First-match lookup in the association-list rendering of `lookup_`. -/
def lookupFind (tbl : Table) (k : List Bool) : Option (Option TrieNode) :=
  match tbl with
  | [] => none
  | (k₀, v₀) :: rest => if k₀ = k then some v₀ else lookupFind rest k

/-- Presence test `lookup_.count(k)`: 1 when the key is present, else 0. -/
def tblCount (tbl : Table) (k : List Bool) : Nat :=
  if (lookupFind tbl k).isSome then 1 else 0

/-- Map access `lookup_[k]` (`std::unordered_map::operator[]`): returns the stored
pointer when `k` is present; otherwise inserts a value-initialized (null)
pointer under `k` and returns it.  State-passing rendering. -/
def mapIndex (tbl : Table) (k : List Bool) : Option TrieNode × Table :=
  match lookupFind tbl k with
  | some v => (v, tbl)
  | none => (none, (k, none) :: tbl)

/-- One iteration of the binary search over prefix lengths in
`YTrie::getPredecessor`.  State: (lookup table, lowRange, highRange,
bestMatchingNode).  `middle = round((lowRange + highRange) / 2)` is the
integer `(low + high) / 2` (both bounds are non-negative whenever the loop
body runs, so Lean's and C's divisions agree); the prefix of that length is
tested for presence; on a hit the node is remembered and the search moves
to longer prefixes, else to shorter ones, moving a stuck bound by one. -/
def predStep (fullBits : List Bool) (s : Table × Int × Int × Option TrieNode) :
    Table × Int × Int × Option TrieNode :=
  let tbl := s.1
  let low := s.2.1
  let high := s.2.2.1
  let middle : Int := (low + high) / 2
  let part := fullBits.take middle.toNat
  if tblCount tbl part ≠ 0 then
    let r := mapIndex tbl part
    if low = middle then (r.2, low + 1, high, r.1) else (r.2, middle, high, r.1)
  else
    if high = middle then (tbl, low, high - 1, s.2.2.2) else (tbl, low, middle, s.2.2.2)

/-- The `while (lowRange <= highRange)` loop.  Fuel: each iteration
strictly decreases `(highRange + 1 - lowRange).toNat` (proved below), so
the initial measure `depth + 2` dominates the iteration count and the
fueled loop reaches the exit condition exactly like the C++ loop. -/
def predLoop (fullBits : List Bool) (fuel : Nat)
    (s : Table × Int × Int × Option TrieNode) : Table × Int × Int × Option TrieNode :=
  match fuel with
  | 0 => s
  | f + 1 =>
    if s.2.1 ≤ s.2.2.1 then predLoop fullBits f (predStep fullBits s) else s

/-- The state after the prefix binary search of `getPredecessor(limit)`:
bit string of the low `depth+1` bits of `limit`, `bestMatchingNode`
initialized from `lookup_[""]`, bounds `0` and `depth + 1`. -/
def searchState (t : YTrie) (limit : Nat) : Table × Int × Int × Option TrieNode :=
  let fullBits := toBits limit t.depth
  let r0 := mapIndex t.lookup []
  predLoop fullBits (t.depth + 2) (r0.2, 0, (t.depth : Int) + 1, r0.1)

/-- The `bestMatchingNode` pointer after the binary search. -/
def bestMatchingNode (t : YTrie) (limit : Nat) : Option TrieNode :=
  (searchState t limit).2.2.2

/-- The sentinel `LLONG_MAX`, returned by the unreachable both-null branch. -/
def llongMax : Int := 2 ^ 63 - 1

/-- The representative record at index `i` (value, block keys). -/
def repAt (t : YTrie) (i : Nat) : Nat × List Nat :=
  t.reps.getD i (0, [])

/-- Query `YTrie::getPredecessor`, state-passing (result, lookup table after the
call).  After the binary search: a leaf answers with its representative's
value; a split node answers from the block right of `leftMax` (bounded
below by `leftMax`'s value) or, when `leftMax` is null, from `rightMin`'s
own block (bounded below by the previous representative's value, or by 0
when `rightMin` is the first representative); a split with both sides null
would return `LLONG_MAX`.  The result is `none` exactly where the C++
would dereference a null `bestMatchingNode` (never, for built tries —
proved below). -/
def getPredecessorFull (t : YTrie) (limit : Nat) : Option Int × Table :=
  let s := searchState t limit
  (match s.2.2.2 with
   | none => none
   | some (TrieNode.leaf r) => some ((repAt t r).1 : Int)
   | some (TrieNode.split lm rm) =>
     match lm with
     | some i =>
       if i + 1 < t.reps.length then
         some (bstPredecessor (repAt t (i + 1)).2 (repAt t i).1 limit : Int)
       else
         some ((repAt t i).1 : Int)
     | none =>
       match rm with
       | some j =>
         if 1 ≤ j then
           some (bstPredecessor (repAt t j).2 (repAt t (j - 1)).1 limit : Int)
         else
           some (bstPredecessor (repAt t j).2 0 limit : Int)
       | none => some llongMax,
   s.1)

/-- The return value of `YTrie::getPredecessor`. -/
def getPredecessor (t : YTrie) (limit : Nat) : Option Int :=
  (getPredecessorFull t limit).1


/-! ## Basic facts about the depth computation -/

/-- With enough fuel, the fueled base-2 logarithm is `Nat.log2`. -/
theorem log2Floor_eq (fuel n : Nat) (h : n ≤ fuel) : log2Floor fuel n = Nat.log2 n := by
  induction fuel generalizing n with
  | zero =>
    interval_cases n
    simp [log2Floor, Nat.log2]
  | succ f ih =>
    rw [log2Floor]
    rw [Nat.log2]
    by_cases h2 : 2 ≤ n
    · rw [if_pos h2, if_pos h2, ih (n / 2) (by omega)]
    · rw [if_neg h2, if_neg h2]

/-- Indeed `calcDepth` is the integer base-2 logarithm of the last value. -/
theorem calcDepth_eq (values : List Nat) :
    calcDepth values = Nat.log2 (values.getLastD 0) :=
  log2Floor_eq _ _ le_rfl

/-! ## Claims settled by evaluation -/

/-- C2: on the concrete input `[3,5,9,12,20,33,40]` the computed depth is 5,
construction forms the blocks `[3,5,9,12,20]` (representative 20) and
`[33,40]` (representative 40), and the five queries return 33, 5,
no-predecessor, 40 and 20.  The code has no explicit `NoPredecessor`
variant; per its own comment (`// 0 is ok if we checked for input bound
before`) the value 0 — never an indexed key, since all keys are ≥ 1 —
plays that role, so `getPredecessor 2 = some 0` is the no-predecessor
outcome. -/
theorem claim_C2 :
    (buildYTrie [3, 5, 9, 12, 20, 33, 40]).depth = 5 ∧
    (buildYTrie [3, 5, 9, 12, 20, 33, 40]).reps =
      [(20, [3, 5, 9, 12, 20]), (40, [33, 40])] ∧
    getPredecessor (buildYTrie [3, 5, 9, 12, 20, 33, 40]) 34 = some 33 ∧
    getPredecessor (buildYTrie [3, 5, 9, 12, 20, 33, 40]) 5 = some 5 ∧
    getPredecessor (buildYTrie [3, 5, 9, 12, 20, 33, 40]) 2 = some 0 ∧
    getPredecessor (buildYTrie [3, 5, 9, 12, 20, 33, 40]) 100 = some 40 ∧
    getPredecessor (buildYTrie [3, 5, 9, 12, 20, 33, 40]) 20 = some 20 := by
  decide

/-- C1 fails on the code: for the valid sorted input `[3,5,9,12,20,33,40]`
(depth 5) and `limit = 68 ∈ [0, 2·40]`, the largest indexed key ≤ 68 is 40,
but `getPredecessor` answers 20.  The search keys the trie walk on the low
`depth+1 = 6` bits of the limit only (`substr(64-(depth_+1))`), so 68
(binary `1000100`) is routed like 4 (binary `000100`), and the block search
then uses the untruncated limit inside the wrong block. -/
theorem claim_C1_failure :
    getPredecessor (buildYTrie [3, 5, 9, 12, 20, 33, 40]) 68 = some 20 ∧
    (40 : Nat) ∈ [3, 5, 9, 12, 20, 33, 40] ∧ (40 : Nat) ≤ 68 ∧
    (68 : Nat) ≤ 2 * 40 ∧ some (20 : Int) ≠ some (40 : Int) := by
  decide

/-- C9 fails on the code: construction on empty input calls
`values.back()` on an empty vector, and construction with maximum key 0
casts `std::floor(std::log2(0))` (i.e. `-inf`) to `int64_t` — both are
undefined behaviour, and no fault of any kind is surfaced to the caller
(the constructor has no error channel at all).  Evaluating the embedding —
which totalizes those undefined reads with default values — at both
failing inputs shows construction simply proceeding to a (meaningless)
structure instead of reporting a fault. -/
theorem claim_C9_no_fault_surfaced :
    (buildYTrie []).depth = 0 ∧ (buildYTrie []).reps = [] ∧
    (buildYTrie []).lookup ≠ [] ∧
    (buildYTrie [0]).depth = 0 ∧ (buildYTrie [0]).reps = [(0, [0])] := by
  decide

/-! ## C10: termination of the prefix binary search -/

/-- Each executed iteration of the binary search strictly decreases the
interval measure `(highRange + 1 - lowRange).toNat`. -/
theorem predStep_measure (fullBits : List Bool)
    (s : Table × Int × Int × Option TrieNode) (h : s.2.1 ≤ s.2.2.1) :
    ((predStep fullBits s).2.2.1 + 1 - (predStep fullBits s).2.1).toNat
      < (s.2.2.1 + 1 - s.2.1).toNat := by
  obtain ⟨tbl, low, high, best⟩ := s
  dsimp only at h ⊢
  have hm1 : low ≤ (low + high) / 2 := by omega
  have hm2 : (low + high) / 2 ≤ high := by omega
  simp only [predStep]
  split
  · split
    · simp only
      omega
    · simp only
      omega
  · split
    · simp only
      omega
    · simp only
      omega

/-- C10: the prefix binary search of `getPredecessor` terminates: every
iteration from a state with `lowRange ≤ highRange` strictly shrinks the
measure `(highRange + 1 - lowRange).toNat` (on a hit the lower bound moves
up to `middle`, or by one if stuck; on a miss the upper bound moves down to
`middle`, or by one if stuck), and consequently from every start state some
finite number of iterations reaches `lowRange > highRange`. -/
theorem claim_C10 (fullBits : List Bool) (s : Table × Int × Int × Option TrieNode) :
    (s.2.1 ≤ s.2.2.1 →
      ((predStep fullBits s).2.2.1 + 1 - (predStep fullBits s).2.1).toNat
        < (s.2.2.1 + 1 - s.2.1).toNat) ∧
    ∃ n : Nat, ¬ ((predStep fullBits)^[n] s).2.1 ≤ ((predStep fullBits)^[n] s).2.2.1 := by
  constructor
  · exact predStep_measure fullBits s
  · have key : ∀ (m : Nat) (s : Table × Int × Int × Option TrieNode),
        (s.2.2.1 + 1 - s.2.1).toNat ≤ m →
        ∃ n : Nat, ¬ ((predStep fullBits)^[n] s).2.1 ≤ ((predStep fullBits)^[n] s).2.2.1 := by
      intro m
      induction m with
      | zero =>
        intro s hs
        refine ⟨0, ?_⟩
        simp only [Function.iterate_zero_apply]
        omega
      | succ m ih =>
        intro s hs
        by_cases hle : s.2.1 ≤ s.2.2.1
        · have hd := predStep_measure fullBits s hle
          obtain ⟨n, hn⟩ := ih (predStep fullBits s) (by omega)
          exact ⟨n + 1, by rwa [Function.iterate_succ_apply]⟩
        · exact ⟨0, by simpa using hle⟩
    exact key ((s.2.2.1 + 1 - s.2.1).toNat) s le_rfl

/-- Witness for C10 at a concrete state with `lowRange ≤ highRange`. -/
theorem claim_C10_witness :
    (((predStep [] (([] : Table), (0 : Int), (1 : Int), (none : Option TrieNode))).2.2.1 + 1
        - (predStep [] (([] : Table), (0 : Int), (1 : Int), (none : Option TrieNode))).2.1).toNat
      < ((1 : Int) + 1 - (0 : Int)).toNat) ∧
    ∃ n : Nat,
      ¬ ((predStep [])^[n] (([] : Table), (0 : Int), (1 : Int), (none : Option TrieNode))).2.1
        ≤ ((predStep [])^[n] (([] : Table), (0 : Int), (1 : Int), (none : Option TrieNode))).2.2.1 :=
  ⟨(claim_C10 [] (([] : Table), (0 : Int), (1 : Int), (none : Option TrieNode))).1 (by decide),
   (claim_C10 [] (([] : Table), (0 : Int), (1 : Int), (none : Option TrieNode))).2⟩

/-! ## Lookup-table lemmas -/

/-- A successful association-list lookup returns a stored entry. -/
theorem lookupFind_mem {tbl : Table} {k : List Bool} {v : Option TrieNode}
    (h : lookupFind tbl k = some v) : (k, v) ∈ tbl := by
  induction tbl with
  | nil => simp [lookupFind] at h
  | cons hd tl ih =>
    obtain ⟨k₀, v₀⟩ := hd
    rw [lookupFind] at h
    by_cases hk : k₀ = k
    · rw [if_pos hk] at h
      cases h
      subst hk
      exact List.mem_cons_self _ _
    · rw [if_neg hk] at h
      exact List.mem_cons_of_mem _ (ih h)

/-- A key that occurs in the table is found by `lookupFind`. -/
theorem lookupFind_isSome_of_mem {tbl : Table} {k : List Bool} {v : Option TrieNode}
    (h : (k, v) ∈ tbl) : (lookupFind tbl k).isSome := by
  induction tbl with
  | nil => simp at h
  | cons hd tl ih =>
    obtain ⟨k₀, v₀⟩ := hd
    rw [lookupFind]
    by_cases hk : k₀ = k
    · rw [if_pos hk]
      rfl
    · rw [if_neg hk]
      rcases List.mem_cons.mp h with h₁ | h₂
      · cases h₁
        exact absurd rfl hk
      · exact ih h₂

/-- Applying `operator[]` on a present key returns its value without touching the
table. -/
theorem mapIndex_present {tbl : Table} {k : List Bool} {v : Option TrieNode}
    (h : lookupFind tbl k = some v) : mapIndex tbl k = (v, tbl) := by
  rw [mapIndex, h]

/-- The inner node built by a `constructTrie` step always carries at least
one non-null side: a found split point populates `rightMin`, and the
no-split-found patch populates `leftMax`. -/
theorem splitNodeOf_side (found : Option Nat) (lo hi : Nat) :
    ∀ l r, splitNodeOf found lo hi = TrieNode.split l r → l ≠ none ∨ r ≠ none := by
  intro l r h
  cases found with
  | none =>
    rw [splitNodeOf] at h
    cases h
    exact Or.inl (by simp)
  | some i =>
    rw [splitNodeOf] at h
    cases h
    exact Or.inr (by simp)

/-- Monotonicity: `constructTrie` only adds entries: the incoming table is contained in
the outgoing one. -/
theorem constructTrie_subset (e1 : Nat) (p : List Bool) (lo hi : Nat)
    (vals : List Nat) (L : Table) :
    ∀ x ∈ L, x ∈ (constructTrie e1 p lo hi vals L).2 := by
  induction e1 generalizing p lo hi vals L with
  | zero =>
    intro x hx
    exact List.mem_cons_of_mem _ hx
  | succ e ih =>
    intro x hx
    simp only [constructTrie]
    split
    · apply ih
      split
      · exact ih _ _ _ _ _ x (List.mem_cons_of_mem _ hx)
      · exact List.mem_cons_of_mem _ hx
    · split
      · exact ih _ _ _ _ _ x (List.mem_cons_of_mem _ hx)
      · exact List.mem_cons_of_mem _ hx

/-- Every `constructTrie` call records a node under its own path. -/
theorem constructTrie_self_mem (e1 : Nat) (p : List Bool) (lo hi : Nat)
    (vals : List Nat) (L : Table) :
    ∃ v, (p, v) ∈ (constructTrie e1 p lo hi vals L).2 := by
  cases e1 with
  | zero =>
    exact ⟨some (TrieNode.leaf hi), List.mem_cons_self _ _⟩
  | succ e =>
    refine ⟨some (splitNodeOf (stripAt e lo hi vals).2 lo hi), ?_⟩
    simp only [constructTrie]
    split
    · apply constructTrie_subset
      split
      · exact constructTrie_subset _ _ _ _ _ _ _ (List.mem_cons_self _ _)
      · exact List.mem_cons_self _ _
    · split
      · exact constructTrie_subset _ _ _ _ _ _ _ (List.mem_cons_self _ _)
      · exact List.mem_cons_self _ _

/-- Every entry a `constructTrie` call adds to the table stores a non-null
node, and any `Split` among them has at least one non-null side. -/
theorem constructTrie_entries (e1 : Nat) (p : List Bool) (lo hi : Nat)
    (vals : List Nat) (L : Table) :
    ∀ x ∈ (constructTrie e1 p lo hi vals L).2, x ∈ L ∨
      ∃ nd, x.2 = some nd ∧
        ∀ l r, nd = TrieNode.split l r → l ≠ none ∨ r ≠ none := by
  induction e1 generalizing p lo hi vals L with
  | zero =>
    intro x hx
    rcases List.mem_cons.mp hx with h₁ | h₂
    · subst h₁
      refine Or.inr ⟨TrieNode.leaf hi, rfl, ?_⟩
      intro l r h
      cases h
    · exact Or.inl h₂
  | succ e ih =>
    intro x hx
    simp only [constructTrie] at hx
    have base : ∀ y ∈ ((p, some (splitNodeOf (stripAt e lo hi vals).2 lo hi)) :: L),
        y ∈ L ∨ ∃ nd, y.2 = some nd ∧
          ∀ l r, nd = TrieNode.split l r → l ≠ none ∨ r ≠ none := by
      intro y hy
      rcases List.mem_cons.mp hy with h₁ | h₂
      · subst h₁
        exact Or.inr ⟨_, rfl, splitNodeOf_side _ _ _⟩
      · exact Or.inl h₂
    have step : ∀ (p' : List Bool) (lo' hi' : Nat) (vals' : List Nat) (L' : Table),
        (∀ y ∈ L', y ∈ L ∨ ∃ nd, y.2 = some nd ∧
          ∀ l r, nd = TrieNode.split l r → l ≠ none ∨ r ≠ none) →
        ∀ y ∈ (constructTrie e p' lo' hi' vals' L').2, y ∈ L ∨
          ∃ nd, y.2 = some nd ∧
            ∀ l r, nd = TrieNode.split l r → l ≠ none ∨ r ≠ none := by
      intro p' lo' hi' vals' L' hL' y hy
      rcases ih p' lo' hi' vals' L' y hy with h₁ | h₂
      · exact hL' y h₁
      · exact Or.inr h₂
    split at hx
    · refine step _ _ _ _ _ ?_ x hx
      intro y hy
      split at hy
      · exact step _ _ _ _ _ base y hy
      · exact base y hy
    · split at hx
      · exact step _ _ _ _ _ base x hx
      · exact base x hx

/-! ## The binary search never mutates the table, and its best node comes
from the table -/

/-- One search iteration leaves the lookup table unchanged: `operator[]`
is only ever applied after a successful `count` check. -/
theorem predStep_table (fullBits : List Bool)
    (s : Table × Int × Int × Option TrieNode) :
    (predStep fullBits s).1 = s.1 := by
  obtain ⟨tbl, low, high, best⟩ := s
  simp only [predStep]
  split
  · rename_i hc
    rw [tblCount] at hc
    cases hl : lookupFind tbl (fullBits.take ((low + high) / 2).toNat) with
    | none => rw [hl] at hc; simp at hc
    | some v =>
      rw [mapIndex_present hl]
      split <;> rfl
  · split <;> rfl

/-- The whole search loop leaves the lookup table unchanged. -/
theorem predLoop_table (fullBits : List Bool) (fuel : Nat)
    (s : Table × Int × Int × Option TrieNode) :
    (predLoop fullBits fuel s).1 = s.1 := by
  induction fuel generalizing s with
  | zero => rfl
  | succ f ih =>
    rw [predLoop]
    split
    · rw [ih (predStep fullBits s), predStep_table]
    · rfl

/-- Any property that holds of the initial `bestMatchingNode` and of every
pointer stored in the table holds of the best node after the search. -/
theorem predLoop_best (P : Option TrieNode → Prop) (fullBits : List Bool)
    (fuel : Nat) (s : Table × Int × Int × Option TrieNode)
    (hbest : P s.2.2.2) (htbl : ∀ k v, (k, v) ∈ s.1 → P v) :
    P (predLoop fullBits fuel s).2.2.2 := by
  induction fuel generalizing s with
  | zero => exact hbest
  | succ f ih =>
    rw [predLoop]
    split
    · refine ih (predStep fullBits s) ?_ ?_
      · obtain ⟨tbl, low, high, best⟩ := s
        simp only [predStep]
        split
        · rename_i hc
          rw [tblCount] at hc
          cases hl : lookupFind tbl (fullBits.take ((low + high) / 2).toNat) with
          | none => rw [hl] at hc; simp at hc
          | some v =>
            rw [mapIndex_present hl]
            have hv : P v := htbl _ v (lookupFind_mem hl)
            split <;> exact hv
        · split <;> exact hbest
      · intro k v hkv
        rw [predStep_table] at hkv
        exact htbl k v hkv
    · exact hbest

/-- The root path `""` is present in every built lookup table (the
constructor always performs at least one inner `constructTrie` step). -/
theorem build_root_mem (values : List Nat) :
    ∃ v, (([] : List Bool), v) ∈ (buildYTrie values).lookup := by
  exact constructTrie_self_mem _ _ _ _ _ _

/-- Every pointer stored in a built lookup table is non-null, and every
stored `Split` node has at least one non-null side. -/
theorem build_lookup_shape (values : List Nat) :
    ∀ pth v, (pth, v) ∈ (buildYTrie values).lookup →
      ∃ nd, v = some nd ∧ ∀ l r, nd = TrieNode.split l r → l ≠ none ∨ r ≠ none := by
  intro pth v hv
  rcases constructTrie_entries _ _ _ _ _ _ _ hv with h₁ | h₂
  · simp at h₁
  · exact h₂

/-- C3: in every lookup table built by the constructor, each stored
`Split` node has at least one of `leftMax`, `rightMin` non-null (the
construction patches `leftMax` whenever no split point is found), and for
every query the `bestMatchingNode` reached by the binary search is a
non-null pointer to a node that is not a both-null `Split`; hence
`getPredecessor` never takes the defensive both-null branch returning the
`LLONG_MAX` fault sentinel. -/
theorem claim_C3 (values : List Nat) (limit : Nat) :
    (∀ pth v l r, (pth, v) ∈ (buildYTrie values).lookup →
      v = some (TrieNode.split l r) → l ≠ none ∨ r ≠ none) ∧
    ∃ nd, bestMatchingNode (buildYTrie values) limit = some nd ∧
      ∀ l r, nd = TrieNode.split l r → l ≠ none ∨ r ≠ none := by
  constructor
  · intro pth v l r hv hsome
    obtain ⟨nd, hnd, hside⟩ := build_lookup_shape values pth v hv
    rw [hnd] at hsome
    cases hsome
    exact hside l r rfl
  · obtain ⟨v₀, hv₀⟩ := build_root_mem values
    have hfind : (lookupFind (buildYTrie values).lookup []).isSome :=
      lookupFind_isSome_of_mem hv₀
    obtain ⟨vr, hvr⟩ := Option.isSome_iff_exists.mp hfind
    rw [bestMatchingNode]
    simp only [searchState]
    rw [mapIndex_present hvr]
    refine predLoop_best
      (fun b => ∃ nd, b = some nd ∧
        ∀ l r, nd = TrieNode.split l r → l ≠ none ∨ r ≠ none) _ _ _ ?_ ?_
    · obtain ⟨nd, hnd, hside⟩ :=
        build_lookup_shape values [] vr (lookupFind_mem hvr)
      exact ⟨nd, hnd, hside⟩
    · intro k v hkv
      obtain ⟨nd, hnd, hside⟩ := build_lookup_shape values k v hkv
      exact ⟨nd, hnd, hside⟩

/-- C8: evaluating `getPredecessor` leaves the structure unchanged — the
returned table equals the input table (the representative list and blocks
are never written at all; the only mutation channel, `operator[]`, is
always applied to present keys because the root path is present and every
loop access is guarded by `count`) — and a second identical call on the
post-query structure returns the identical result. -/
theorem claim_C8 (values : List Nat) (limit : Nat) :
    (getPredecessorFull (buildYTrie values) limit).2 = (buildYTrie values).lookup ∧
    getPredecessorFull
      { buildYTrie values with lookup := (getPredecessorFull (buildYTrie values) limit).2 }
      limit = getPredecessorFull (buildYTrie values) limit := by
  have h2 : (getPredecessorFull (buildYTrie values) limit).2 =
      (buildYTrie values).lookup := by
    obtain ⟨v₀, hv₀⟩ := build_root_mem values
    obtain ⟨vr, hvr⟩ := Option.isSome_iff_exists.mp (lookupFind_isSome_of_mem hv₀)
    show (searchState (buildYTrie values) limit).1 = (buildYTrie values).lookup
    simp only [searchState]
    rw [mapIndex_present hvr]
    exact predLoop_table _ _ _
  refine ⟨h2, ?_⟩
  have heq : ({ buildYTrie values with
      lookup := (getPredecessorFull (buildYTrie values) limit).2 } : YTrie) =
      buildYTrie values := by
    rw [h2]
  rw [heq]

/-! ## Helpers about list indexing and sortedness -/

/-- Last element: `getLastD` is indexing at `length - 1`. -/
theorem getLastD_eq_getD (l : List Nat) : ∀ a : Nat, l ≠ [] →
    l.getLastD a = l.getD (l.length - 1) a := by
  induction l with
  | nil => intro a h; cases h rfl
  | cons x t ih =>
    intro a h
    cases t with
    | nil => rfl
    | cons y t2 =>
      rw [List.getLastD_cons, ih x (by simp)]
      have hlen : (x :: y :: t2).length - 1 = ((y :: t2).length - 1) + 1 := by
        simp
      rw [hlen, List.getD_cons_succ]
      have hidx : (y :: t2).length - 1 < (y :: t2).length := by simp
      simp [List.getD_eq_getElem?_getD, List.getElem?_eq_getElem hidx]

/-- In a strictly sorted list, indexing is strictly monotone. -/
theorem sorted_getD_lt (l : List Nat) (hs : l.Sorted (· < ·)) (i j : Nat)
    (hij : i < j) (hj : j < l.length) : l.getD i 0 < l.getD j 0 := by
  have hi : i < l.length := lt_trans hij hj
  have h := (List.pairwise_iff_getElem.mp hs) i j hi hj hij
  rw [List.getD_eq_getElem?_getD, List.getD_eq_getElem?_getD,
    List.getElem?_eq_getElem hi, List.getElem?_eq_getElem hj]
  exact h

/-- In a strictly sorted list, indexing is monotone. -/
theorem sorted_getD_le (l : List Nat) (hs : l.Sorted (· < ·)) (i j : Nat)
    (hij : i ≤ j) (hj : j < l.length) : l.getD i 0 ≤ l.getD j 0 := by
  rcases Nat.eq_or_lt_of_le hij with rfl | hlt
  · exact le_rfl
  · exact le_of_lt (sorted_getD_lt l hs i j hlt hj)

/-- Push a `Nat` sum through the `Int` coercion (loop index steps). -/
theorem intCast_add_nat (j d : Nat) : (j : Int) + (d : Int) = ((j + d : Nat) : Int) := by
  push_cast
  ring

/-! ## The shape of the blocks produced by the splitter -/

/-- A group of `g` values ending at a valid position has exactly `g` keys. -/
theorem constructBST_length (values : List Nat) (k g : Nat) (hg : 1 ≤ g)
    (hk1 : g ≤ k + 1) (hk : k < values.length) :
    (constructBST k g values).length = g := by
  rw [constructBST]
  simp only [List.length_take, List.length_drop]
  omega

/-- The last key of a group is the value at its defining position, and the
group is non-empty. -/
theorem constructBST_getLastD (values : List Nat) (k g : Nat) (hg : 1 ≤ g)
    (hk1 : g ≤ k + 1) (hk : k < values.length) :
    (constructBST k g values).getLastD 0 = values.getD k 0 ∧
      constructBST k g values ≠ [] := by
  have hlen := constructBST_length values k g hg hk1 hk
  have hne : constructBST k g values ≠ [] := by
    intro h
    rw [h] at hlen
    simp at hlen
    omega
  refine ⟨?_, hne⟩
  rw [getLastD_eq_getD _ 0 hne, hlen]
  rw [List.getD_eq_getElem?_getD, List.getD_eq_getElem?_getD, constructBST]
  rw [List.getElem?_take, if_pos (by omega : g - 1 < g), List.getElem?_drop]
  have h : k + 1 - g + (g - 1) = k := by omega
  rw [h]

/-- Every key of a group comes from the window `[k+1-g, k]` of the input. -/
theorem constructBST_mem (values : List Nat) (k g : Nat) (hg : 1 ≤ g)
    (hk1 : g ≤ k + 1) (hk : k < values.length) :
    ∀ x ∈ constructBST k g values, ∃ i, k + 1 - g ≤ i ∧ i ≤ k ∧
      i < values.length ∧ x = values.getD i 0 := by
  intro x hx
  rw [constructBST] at hx
  obtain ⟨i, hi, hix⟩ := List.mem_iff_getElem.mp hx
  have hi2 : i < min g (values.length - (k + 1 - g)) := by simpa using hi
  refine ⟨k + 1 - g + i, by omega, by omega, by omega, ?_⟩
  have ha : ((values.drop (k + 1 - g)).take g)[i]? = values[k + 1 - g + i]? := by
    rw [List.getElem?_take, if_pos (by omega : i < g), List.getElem?_drop]
  have hb : ((values.drop (k + 1 - g)).take g)[i]? = some x := by
    rw [List.getElem?_eq_getElem hi, hix]
  rw [List.getD_eq_getElem?_getD, ← ha, hb]
  rfl

/-- Every representative produced by the splitter loop started at index `j`
sits at an input index `k ≥ j` in the same residue class modulo the block
size, and is the pair (value there, group of `depth` values ending there). -/
theorem splitLoop_entries (d : Nat) (values : List Nat) (fuel : Nat) :
    ∀ j : Nat, ∀ x ∈ splitLoop d values fuel (j : Int),
      ∃ k : Nat, j ≤ k ∧ k < values.length ∧ k % d = j % d ∧
        x = (values.getD k 0, constructBST k d values) := by
  induction fuel with
  | zero =>
    intro j x hx
    simp [splitLoop] at hx
  | succ f ih =>
    intro j x hx
    rw [splitLoop] at hx
    split at hx
    · rename_i hcond
      rcases List.mem_cons.mp hx with h1 | h2
      · refine ⟨j, le_rfl, ?_, rfl, ?_⟩
        · exact_mod_cast hcond.2
        · rw [h1]
          simp
      · rw [intCast_add_nat] at h2
        obtain ⟨k, hk1, hk2, hk3, hk4⟩ := ih (j + d) x h2
        rw [Nat.add_mod_right] at hk3
        exact ⟨k, by omega, hk2, hk3, hk4⟩
    · simp at hx

/-- The representative values produced by the splitter loop are pairwise
strictly increasing (for strictly sorted input). -/
theorem splitLoop_pairwise (d : Nat) (values : List Nat) (hd : 1 ≤ d)
    (hs : values.Sorted (· < ·)) (fuel : Nat) :
    ∀ j : Nat, ((splitLoop d values fuel (j : Int)).map Prod.fst).Pairwise (· < ·) := by
  induction fuel with
  | zero =>
    intro j
    simp [splitLoop]
  | succ f ih =>
    intro j
    rw [splitLoop]
    split
    · rename_i hcond
      rw [List.map_cons]
      refine List.Pairwise.cons ?_ ?_
      · intro b hb
        rw [intCast_add_nat] at hb
        obtain ⟨x, hx, hbx⟩ := List.mem_map.mp hb
        obtain ⟨k, hk1, hk2, _, hk4⟩ := splitLoop_entries d values f (j + d) x hx
        have hx1 : x.1 = values.getD k 0 := by rw [hk4]
        rw [← hbx, hx1]
        have hgoal : values.getD j 0 < values.getD k 0 :=
          sorted_getD_lt values hs j k (by omega) hk2
        simpa using hgoal
      · rw [intCast_add_nat]
        exact ih (j + d)
    · simp

/-- Closed form of the keys covered by the splitter loop from index `j`:
the full windows of size `d` of the input, starting at `j + 1 - d`. -/
theorem splitLoop_flatten (d : Nat) (values : List Nat) (hd : 1 ≤ d) (fuel : Nat) :
    ∀ j : Nat, d ≤ j + 1 → values.length - j ≤ fuel →
    ((splitLoop d values fuel (j : Int)).map Prod.snd).flatten
      = (values.drop (j + 1 - d)).take
          (d * ((values.length - (j + 1 - d)) / d)) := by
  induction fuel with
  | zero =>
    intro j hj hfe
    have hq : (values.length - (j + 1 - d)) / d = 0 := Nat.div_eq_of_lt (by omega)
    rw [hq, Nat.mul_zero, List.take_zero]
    simp [splitLoop]
  | succ f ih =>
    intro j hj hfe
    rw [splitLoop]
    by_cases hjn : j < values.length
    · rw [if_pos ⟨by exact_mod_cast Nat.zero_le j, by exact_mod_cast hjn⟩]
      rw [List.map_cons, List.flatten_cons, intCast_add_nat,
        ih (j + d) (by omega) (by omega)]
      have h1 : j + d + 1 - d = j + 1 := by omega
      rw [h1]
      have h3 : (values.length - (j + 1 - d)) / d
          = (values.length - (j + 1)) / d + 1 := by
        have h2 : values.length - (j + 1 - d) = (values.length - (j + 1)) + d := by
          omega
        rw [h2, Nat.add_div_right _ (by omega : 0 < d)]
      rw [h3, Nat.mul_add, Nat.mul_one,
        Nat.add_comm (d * ((values.length - (j + 1)) / d)) d, List.take_add,
        List.drop_drop]
      have h4 : j + 1 - d + d = j + 1 := by omega
      rw [h4]
      dsimp only
      simp only [Int.toNat_ofNat]
      rw [constructBST]
    · rw [if_neg ?_]
      · have hq : (values.length - (j + 1 - d)) / d = 0 :=
          Nat.div_eq_of_lt (by omega)
        rw [hq, Nat.mul_zero, List.take_zero]
        rfl
      · intro hcond
        exact hjn (by exact_mod_cast hcond.2)

/-- Every block produced by the splitter loop has exactly `d` keys. -/
theorem splitLoop_blocks_length (d : Nat) (values : List Nat) (hd : 1 ≤ d) (fuel : Nat) :
    ∀ j : Nat, d ≤ j + 1 →
      ∀ b ∈ (splitLoop d values fuel (j : Int)).map Prod.snd, b.length = d := by
  intro j hj b hb
  obtain ⟨x, hx, hbx⟩ := List.mem_map.mp hb
  obtain ⟨k, hk1, hk2, hk3, hk4⟩ := splitLoop_entries d values fuel j x hx
  rw [← hbx, hk4]
  exact constructBST_length values k d hd (by omega) hk2

/-! ## C4: the splitter partitions the input into blocks -/

/-- C4: construction partitions the input keys into contiguous blocks —
concatenating the blocks of the representative list in order gives back
the input — with every block except possibly the last of exactly `d` keys,
the last block of `n mod d` keys when that remainder is nonzero, and every
representative carrying the last (= maximum) key of its window. -/
theorem claim_C4 (values : List Nat) (hs : values.Sorted (· < ·))
    (hd : 1 ≤ calcDepth values) :
    (((buildYTrie values).reps.map Prod.snd).flatten = values) ∧
    (∀ b ∈ ((buildYTrie values).reps.map Prod.snd).dropLast,
      b.length = (buildYTrie values).depth) ∧
    (values.length % (buildYTrie values).depth ≠ 0 →
      (((buildYTrie values).reps.map Prod.snd).getLastD []).length
        = values.length % (buildYTrie values).depth) ∧
    (∀ x ∈ (buildYTrie values).reps,
      x.2 ≠ [] ∧ x.1 = x.2.getLastD 0 ∧ ∀ k ∈ x.2, k ≤ x.1) := by
  set d := calcDepth values with hdd
  have hreps : (buildYTrie values).reps = split d values := rfl
  have hdep : (buildYTrie values).depth = d := rfl
  rw [hreps, hdep]
  have hcast : ((d : Int) - 1) = (((d - 1 : Nat)) : Int) := by omega
  have hflat := splitLoop_flatten d values hd values.length (d - 1) (by omega) (by omega)
  have hstart : d - 1 + 1 - d = 0 := by omega
  rw [hstart, List.drop_zero, Nat.sub_zero] at hflat
  have hdivmod := Nat.div_add_mod values.length d
  have hloop4 : ∀ x ∈ splitLoop d values values.length ((d : Int) - 1),
      x.2 ≠ [] ∧ x.1 = x.2.getLastD 0 ∧ ∀ k ∈ x.2, k ≤ x.1 := by
    intro x hx
    rw [hcast] at hx
    obtain ⟨k, hk1, hk2, hk3, hk4⟩ := splitLoop_entries d values values.length (d - 1) x hx
    have hk5 : d ≤ k + 1 := by omega
    obtain ⟨hlast, hne⟩ := constructBST_getLastD values k d hd hk5 hk2
    rw [hk4]
    refine ⟨hne, by rw [hlast], ?_⟩
    intro key hkey
    obtain ⟨i, hi1, hi2, hi3, hi4⟩ := constructBST_mem values k d hd hk5 hk2 key hkey
    rw [hi4]
    exact sorted_getD_le values hs i k hi2 hk2
  by_cases hmod : values.length % d = 0
  · rw [split, if_neg (by omega), List.append_nil]
    have hfull : d * (values.length / d) = values.length := by omega
    refine ⟨?_, ?_, by omega, hloop4⟩
    · rw [hcast, hflat, hfull, List.take_length]
    · intro b hb
      rw [hcast] at hb
      exact splitLoop_blocks_length d values hd values.length (d - 1) (by omega) b
        (List.mem_of_mem_dropLast hb)
  · have hn0 : values.length ≠ 0 := by
      intro h
      rw [h, Nat.zero_mod] at hmod
      exact hmod rfl
    have hvne : values ≠ [] := by
      intro h
      rw [h] at hn0
      exact hn0 rfl
    have hirrk : values.length % d ≤ values.length - 1 + 1 := by omega
    have hirrg : 1 ≤ values.length % d := by omega
    have hirrn : values.length - 1 < values.length := by omega
    have hirrlen := constructBST_length values (values.length - 1)
      (values.length % d) hirrg hirrk hirrn
    rw [split, if_pos hmod]
    refine ⟨?_, ?_, ?_, ?_⟩
    · rw [List.map_append, List.flatten_append, hcast, hflat]
      have hirr : constructBST (values.length - 1) (values.length % d) values
          = values.drop (d * (values.length / d)) := by
        rw [constructBST]
        have h1 : values.length - 1 + 1 - values.length % d
            = d * (values.length / d) := by omega
        rw [h1]
        apply List.take_of_length_le
        rw [List.length_drop]
        omega
      simp only [List.map_cons, List.map_nil, List.flatten_cons, List.flatten_nil,
        List.append_nil]
      rw [hirr, List.take_append_drop]
    · intro b hb
      rw [List.map_append] at hb
      simp only [List.map_cons, List.map_nil] at hb
      rw [List.dropLast_concat] at hb
      rw [hcast] at hb
      exact splitLoop_blocks_length d values hd values.length (d - 1) (by omega) b hb
    · intro _
      rw [List.map_append]
      simp only [List.map_cons, List.map_nil]
      rw [List.getLastD_concat]
      exact hirrlen
    · intro x hx
      rcases List.mem_append.mp hx with h1 | h2
      · exact hloop4 x h1
      · have hx2 : x = (values.getLastD 0,
            constructBST (values.length - 1) (values.length % d) values) := by
          simpa using h2
        obtain ⟨hlast, hne⟩ := constructBST_getLastD values (values.length - 1)
          (values.length % d) hirrg hirrk hirrn
        rw [hx2]
        refine ⟨hne, ?_, ?_⟩
        · rw [hlast, getLastD_eq_getD values 0 hvne]
        · intro key hkey
          obtain ⟨i, hi1, hi2, hi3, hi4⟩ := constructBST_mem values
            (values.length - 1) (values.length % d) hirrg hirrk hirrn key hkey
          rw [hi4, getLastD_eq_getD values 0 hvne]
          exact sorted_getD_le values hs i (values.length - 1) hi2 hirrn

/-- Witness for C4 at the concrete input of the spec scenario. -/
theorem claim_C4_witness :
    (((buildYTrie [3, 5, 9, 12, 20, 33, 40]).reps.map Prod.snd).flatten
        = [3, 5, 9, 12, 20, 33, 40]) ∧
    (∀ b ∈ ((buildYTrie [3, 5, 9, 12, 20, 33, 40]).reps.map Prod.snd).dropLast,
      b.length = (buildYTrie [3, 5, 9, 12, 20, 33, 40]).depth) ∧
    ([3, 5, 9, 12, 20, 33, 40].length % (buildYTrie [3, 5, 9, 12, 20, 33, 40]).depth ≠ 0 →
      (((buildYTrie [3, 5, 9, 12, 20, 33, 40]).reps.map Prod.snd).getLastD []).length
        = [3, 5, 9, 12, 20, 33, 40].length % (buildYTrie [3, 5, 9, 12, 20, 33, 40]).depth) ∧
    (∀ x ∈ (buildYTrie [3, 5, 9, 12, 20, 33, 40]).reps,
      x.2 ≠ [] ∧ x.1 = x.2.getLastD 0 ∧ ∀ k ∈ x.2, k ≤ x.1) :=
  claim_C4 [3, 5, 9, 12, 20, 33, 40] (by decide) (by decide)

/-! ## C6: structural invariants of the built table -/

/-- The inner node of a `constructTrie` step is never a `Leaf`. -/
theorem splitNodeOf_ne_leaf (found : Option Nat) (lo hi r : Nat) :
    splitNodeOf found lo hi ≠ TrieNode.leaf r := by
  cases found <;> simp [splitNodeOf]

/-- Every entry a `constructTrie` call adds whose node is a `Leaf` sits at
a path of length `path.length + e1` (leaves are only created at the
`exponent = -1` step, after all `e1` remaining levels were descended). -/
theorem constructTrie_leaf_length (e1 : Nat) :
    ∀ (p : List Bool) (lo hi : Nat) (vals : List Nat) (L : Table),
    ∀ x ∈ (constructTrie e1 p lo hi vals L).2, x ∈ L ∨
      ∀ r, x.2 = some (TrieNode.leaf r) → x.1.length = p.length + e1 := by
  induction e1 with
  | zero =>
    intro p lo hi vals L x hx
    rcases List.mem_cons.mp hx with h1 | h2
    · subst h1
      refine Or.inr ?_
      intro r h
      simp
    · exact Or.inl h2
  | succ e ih =>
    intro p lo hi vals L x hx
    simp only [constructTrie] at hx
    have base : ∀ y ∈ ((p, some (splitNodeOf (stripAt e lo hi vals).2 lo hi)) :: L),
        y ∈ L ∨ ∀ r, y.2 = some (TrieNode.leaf r) → y.1.length = p.length + (e + 1) := by
      intro y hy
      rcases List.mem_cons.mp hy with h1 | h2
      · subst h1
        refine Or.inr ?_
        intro r h
        simp only [Option.some_inj] at h
        exact absurd h (splitNodeOf_ne_leaf _ _ _ _)
      · exact Or.inl h2
    have step : ∀ (b : Bool) (lo' hi' : Nat) (vals' : List Nat) (L' : Table),
        (∀ y ∈ L', y ∈ L ∨ ∀ r, y.2 = some (TrieNode.leaf r) →
          y.1.length = p.length + (e + 1)) →
        ∀ y ∈ (constructTrie e (p ++ [b]) lo' hi' vals' L').2, y ∈ L ∨
          ∀ r, y.2 = some (TrieNode.leaf r) → y.1.length = p.length + (e + 1) := by
      intro b lo' hi' vals' L' hL' y hy
      rcases ih (p ++ [b]) lo' hi' vals' L' y hy with h1 | h2
      · exact hL' y h1
      · refine Or.inr ?_
        intro r hr
        rw [h2 r hr]
        simp
        omega
    split at hx
    · refine step true _ _ _ _ ?_ x hx
      intro y hy
      split at hy
      · exact step false _ _ _ _ base y hy
      · exact base y hy
    · split at hx
      · exact step false _ _ _ _ base x hx
      · exact base x hx

/-- Every entry a `constructTrie` call adds either sits at the call's own
path or has its parent path present in the output table (each recursive
call inserts under its own path before recursing deeper). -/
theorem constructTrie_parent (e1 : Nat) :
    ∀ (p : List Bool) (lo hi : Nat) (vals : List Nat) (L : Table),
    ∀ x ∈ (constructTrie e1 p lo hi vals L).2, x ∈ L ∨ x.1 = p ∨
      ∃ v', (x.1.dropLast, v') ∈ (constructTrie e1 p lo hi vals L).2 := by
  induction e1 with
  | zero =>
    intro p lo hi vals L x hx
    rcases List.mem_cons.mp hx with h1 | h2
    · subst h1
      exact Or.inr (Or.inl rfl)
    · exact Or.inl h2
  | succ e ih =>
    intro p lo hi vals L x hx
    simp only [constructTrie] at hx ⊢
    by_cases hR : splitIndexOf (stripAt e lo hi vals).2 hi ≤ hi
    · rw [if_pos hR] at hx ⊢
      by_cases hL : lo < splitIndexOf (stripAt e lo hi vals).2 hi
      · rw [if_pos hL] at hx ⊢
        rcases ih (p ++ [true]) _ _ _ _ x hx with h1 | h1 | h1
        · rcases ih (p ++ [false]) _ _ _ _ x h1 with h2 | h2 | h2
          · rcases List.mem_cons.mp h2 with h3 | h3
            · exact Or.inr (Or.inl (by rw [h3]))
            · exact Or.inl h3
          · refine Or.inr (Or.inr
              ⟨some (splitNodeOf (stripAt e lo hi vals).2 lo hi), ?_⟩)
            rw [h2, List.dropLast_concat]
            exact constructTrie_subset _ _ _ _ _ _ _
              (constructTrie_subset _ _ _ _ _ _ _ (List.mem_cons_self _ _))
          · obtain ⟨v', hv'⟩ := h2
            exact Or.inr (Or.inr ⟨v', constructTrie_subset _ _ _ _ _ _ _ hv'⟩)
        · refine Or.inr (Or.inr
            ⟨some (splitNodeOf (stripAt e lo hi vals).2 lo hi), ?_⟩)
          rw [h1, List.dropLast_concat]
          exact constructTrie_subset _ _ _ _ _ _ _
            (constructTrie_subset _ _ _ _ _ _ _ (List.mem_cons_self _ _))
        · exact Or.inr (Or.inr h1)
      · rw [if_neg hL] at hx ⊢
        rcases ih (p ++ [true]) _ _ _ _ x hx with h1 | h1 | h1
        · rcases List.mem_cons.mp h1 with h3 | h3
          · exact Or.inr (Or.inl (by rw [h3]))
          · exact Or.inl h3
        · refine Or.inr (Or.inr
            ⟨some (splitNodeOf (stripAt e lo hi vals).2 lo hi), ?_⟩)
          rw [h1, List.dropLast_concat]
          exact constructTrie_subset _ _ _ _ _ _ _ (List.mem_cons_self _ _)
        · exact Or.inr (Or.inr h1)
    · rw [if_neg hR] at hx ⊢
      by_cases hL : lo < splitIndexOf (stripAt e lo hi vals).2 hi
      · rw [if_pos hL] at hx ⊢
        rcases ih (p ++ [false]) _ _ _ _ x hx with h1 | h1 | h1
        · rcases List.mem_cons.mp h1 with h3 | h3
          · exact Or.inr (Or.inl (by rw [h3]))
          · exact Or.inl h3
        · refine Or.inr (Or.inr
            ⟨some (splitNodeOf (stripAt e lo hi vals).2 lo hi), ?_⟩)
          rw [h1, List.dropLast_concat]
          exact constructTrie_subset _ _ _ _ _ _ _ (List.mem_cons_self _ _)
        · exact Or.inr (Or.inr h1)
      · rw [if_neg hL] at hx ⊢
        rcases List.mem_cons.mp hx with h3 | h3
        · exact Or.inr (Or.inl (by rw [h3]))
        · exact Or.inl h3

/-- The representative values of the splitter output are pairwise strictly
increasing for strictly sorted input: regular representatives sit at input
indices `≡ d-1 (mod d)` in increasing order, and the irregular one (input
index `n-1`, only when `n mod d ≠ 0`) lies strictly beyond all of them. -/
theorem split_fst_pairwise (d : Nat) (values : List Nat) (hd : 1 ≤ d)
    (hs : values.Sorted (· < ·)) :
    ((split d values).map Prod.fst).Pairwise (· < ·) := by
  have hcast : ((d : Int) - 1) = (((d - 1 : Nat)) : Int) := by omega
  rw [split, List.map_append]
  by_cases hmod : values.length % d = 0
  · rw [if_neg (by omega)]
    simp only [List.map_nil, List.append_nil]
    rw [hcast]
    exact splitLoop_pairwise d values hd hs values.length (d - 1)
  · rw [if_pos hmod]
    refine List.pairwise_append.mpr ⟨?_, ?_, ?_⟩
    · rw [hcast]
      exact splitLoop_pairwise d values hd hs values.length (d - 1)
    · simp
    · intro a ha b hb
      simp only [List.map_cons, List.map_nil, List.mem_singleton] at hb
      obtain ⟨x, hx, hax⟩ := List.mem_map.mp ha
      rw [hcast] at hx
      obtain ⟨k, hk1, hk2, hk3, hk4⟩ :=
        splitLoop_entries d values values.length (d - 1) x hx
      have hvne : values ≠ [] := by
        intro h
        rw [h] at hk2
        simp at hk2
      have hkmod : k % d = d - 1 := by
        rw [hk3, Nat.mod_eq_of_lt (by omega)]
      have hkne : k ≠ values.length - 1 := by
        intro he
        subst he
        have hdm := Nat.div_add_mod (values.length - 1) d
        have h5 : values.length = d * ((values.length - 1) / d) + d := by omega
        have h6 : values.length % d = 0 := by
          rw [h5, Nat.mul_add_mod, Nat.mod_self]
        exact hmod h6
      have hax1 : a = values.getD k 0 := by
        rw [← hax, hk4]
      rw [hb, hax1, getLastD_eq_getD values 0 hvne]
      exact sorted_getD_lt values hs k (values.length - 1) (by omega) (by omega)

/-- C6: after construction the four structural invariants hold:
representative keys strictly increase along the `next` links (list order);
a `Leaf` is stored only at paths of length `depth + 1`; every present
non-root path has its parent path present; and the root path is present. -/
theorem claim_C6 (values : List Nat) (hs : values.Sorted (· < ·))
    (hd : 1 ≤ calcDepth values) :
    (((buildYTrie values).reps.map Prod.fst).Chain' (· < ·)) ∧
    (∀ pth v r, (pth, v) ∈ (buildYTrie values).lookup →
      v = some (TrieNode.leaf r) → pth.length = (buildYTrie values).depth + 1) ∧
    (∀ pth v, (pth, v) ∈ (buildYTrie values).lookup → pth ≠ [] →
      ∃ v', (pth.dropLast, v') ∈ (buildYTrie values).lookup) ∧
    (∃ v, (([] : List Bool), v) ∈ (buildYTrie values).lookup) := by
  refine ⟨?_, ?_, ?_, build_root_mem values⟩
  · exact List.Pairwise.chain' (split_fst_pairwise (calcDepth values) values hd hs)
  · intro pth v r hmem hv
    rcases constructTrie_leaf_length (calcDepth values + 1) [] 0
      ((split (calcDepth values) values).length - 1)
      ((split (calcDepth values) values).map Prod.fst) [] (pth, v) hmem with h | h
    · simp at h
    · have := h r hv
      simpa using this
  · intro pth v hmem hne
    rcases constructTrie_parent (calcDepth values + 1) [] 0
      ((split (calcDepth values) values).length - 1)
      ((split (calcDepth values) values).map Prod.fst) [] (pth, v) hmem with h | h | h
    · simp at h
    · exact absurd h hne
    · exact h

/-- Witness for C6 at the concrete input of the spec scenario. -/
theorem claim_C6_witness :
    (((buildYTrie [3, 5, 9, 12, 20, 33, 40]).reps.map Prod.fst).Chain' (· < ·)) ∧
    (∀ pth v r, (pth, v) ∈ (buildYTrie [3, 5, 9, 12, 20, 33, 40]).lookup →
      v = some (TrieNode.leaf r) →
      pth.length = (buildYTrie [3, 5, 9, 12, 20, 33, 40]).depth + 1) ∧
    (∀ pth v, (pth, v) ∈ (buildYTrie [3, 5, 9, 12, 20, 33, 40]).lookup → pth ≠ [] →
      ∃ v', (pth.dropLast, v') ∈ (buildYTrie [3, 5, 9, 12, 20, 33, 40]).lookup) ∧
    (∃ v, (([] : List Bool), v) ∈ (buildYTrie [3, 5, 9, 12, 20, 33, 40]).lookup) :=
  claim_C6 [3, 5, 9, 12, 20, 33, 40] (by decide) (by decide)

/-! ## C7: characterization of the bit-stripping scan -/

/-- The scan does not change the length of the value vector. -/
theorem stripLoop_length (fuel : Nat) :
    ∀ (vals : List Nat) (s i hi : Nat) (fo : Option Nat),
    (stripLoop fuel vals s i hi fo).1.length = vals.length := by
  induction fuel with
  | zero => intro vals s i hi fo; rfl
  | succ f ih =>
    intro vals s i hi fo
    rw [stripLoop]
    split
    · split
      · rw [ih]
        simp
      · exact ih _ _ _ _ _
    · rfl

/-- The scan leaves every entry outside `[i, hi]` unchanged. -/
theorem stripLoop_frame (fuel : Nat) :
    ∀ (vals : List Nat) (s i hi : Nat) (fo : Option Nat) (j : Nat),
    j < i ∨ hi < j →
    (stripLoop fuel vals s i hi fo).1.getD j 0 = vals.getD j 0 := by
  induction fuel with
  | zero => intro vals s i hi fo j _; rfl
  | succ f ih =>
    intro vals s i hi fo j hj
    rw [stripLoop]
    split
    · rename_i hih
      split
      · rw [ih _ _ _ _ _ j (by omega)]
        rw [List.getD_eq_getElem?_getD, List.getElem?_set_ne (by omega : i ≠ j),
          ← List.getD_eq_getElem?_getD]
      · exact ih _ _ _ _ _ j (by omega)
    · rfl

/-- On the window `[i, hi]` the scan subtracts `s` exactly from the
entries that are `≥ s`. -/
theorem stripLoop_window (fuel : Nat) :
    ∀ (vals : List Nat) (s i hi : Nat) (fo : Option Nat),
    hi + 1 - i ≤ fuel → ∀ j, i ≤ j → j ≤ hi →
    (stripLoop fuel vals s i hi fo).1.getD j 0
      = if s ≤ vals.getD j 0 then vals.getD j 0 - s else vals.getD j 0 := by
  induction fuel with
  | zero =>
    intro vals s i hi fo hfe j hj1 hj2
    omega
  | succ f ih =>
    intro vals s i hi fo hfe j hj1 hj2
    rw [stripLoop, if_pos (by omega : i ≤ hi)]
    by_cases hsv : s ≤ vals.getD i 0
    · rw [if_pos hsv]
      by_cases hji : j = i
      · subst hji
        rw [stripLoop_frame f _ _ _ _ _ j (Or.inl (by omega))]
        rw [if_pos hsv]
        by_cases hjl : j < vals.length
        · rw [List.getD_eq_getElem?_getD, List.getElem?_set_self (by simpa using hjl)]
          rfl
        · rw [List.set_eq_of_length_le (by omega)]
          have h0 : vals.getD j 0 = 0 := List.getD_eq_default _ _ (by omega)
          rw [h0] at hsv ⊢
          omega
      · rw [ih _ _ _ _ _ (by omega) j (by omega) hj2]
        rw [List.getD_eq_getElem?_getD (vals.set i _),
          List.getElem?_set_ne (by omega : i ≠ j), ← List.getD_eq_getElem?_getD]
    · rw [if_neg hsv]
      by_cases hji : j = i
      · subst hji
        rw [stripLoop_frame f _ _ _ _ _ j (Or.inl (by omega)), if_neg hsv]
      · exact ih _ _ _ _ _ (by omega) j (by omega) hj2

/-- An already-found split index is never overwritten. -/
theorem stripLoop_found_keep (fuel : Nat) :
    ∀ (vals : List Nat) (s i hi x : Nat),
    (stripLoop fuel vals s i hi (some x)).2 = some x := by
  induction fuel with
  | zero => intro vals s i hi x; rfl
  | succ f ih =>
    intro vals s i hi x
    rw [stripLoop]
    split
    · split
      · simpa using ih _ _ _ _ x
      · exact ih _ _ _ _ x
    · rfl

/-- No split index is found iff every window entry is below `s`. -/
theorem stripLoop_found_none (fuel : Nat) :
    ∀ (vals : List Nat) (s i hi : Nat), hi + 1 - i ≤ fuel →
    ((stripLoop fuel vals s i hi none).2 = none
      ↔ ∀ k, i ≤ k → k ≤ hi → vals.getD k 0 < s) := by
  induction fuel with
  | zero =>
    intro vals s i hi hfe
    rw [stripLoop]
    constructor
    · intro _ k hk1 hk2
      omega
    · intro _
      rfl
  | succ f ih =>
    intro vals s i hi hfe
    rw [stripLoop]
    by_cases hih : i ≤ hi
    · rw [if_pos hih]
      by_cases hsv : s ≤ vals.getD i 0
      · rw [if_pos hsv]
        simp only [Option.isSome_none, Bool.false_eq_true, if_false]
        rw [stripLoop_found_keep]
        constructor
        · intro h
          cases h
        · intro h
          exact absurd (h i le_rfl hih) (by omega)
      · rw [if_neg hsv]
        rw [ih _ _ _ _ (by omega)]
        constructor
        · intro h k hk1 hk2
          rcases Nat.eq_or_lt_of_le hk1 with rfl | hlt
          · omega
          · exact h k (by omega) hk2
        · intro h k hk1 hk2
          exact h k (by omega) hk2
    · rw [if_neg hih]
      constructor
      · intro _ k hk1 hk2
        omega
      · intro _
        rfl

/-- A found split index is the first window entry that is `≥ s`. -/
theorem stripLoop_found_some (fuel : Nat) :
    ∀ (vals : List Nat) (s i hi j : Nat), hi + 1 - i ≤ fuel →
    (stripLoop fuel vals s i hi none).2 = some j →
    i ≤ j ∧ j ≤ hi ∧ s ≤ vals.getD j 0 ∧
      ∀ k, i ≤ k → k < j → vals.getD k 0 < s := by
  induction fuel with
  | zero =>
    intro vals s i hi j hfe h
    cases h
  | succ f ih =>
    intro vals s i hi j hfe h
    rw [stripLoop] at h
    by_cases hih : i ≤ hi
    · rw [if_pos hih] at h
      by_cases hsv : s ≤ vals.getD i 0
      · rw [if_pos hsv] at h
        simp only [Option.isSome_none, Bool.false_eq_true, if_false] at h
        rw [stripLoop_found_keep] at h
        cases h
        exact ⟨le_rfl, hih, hsv, fun k hk1 hk2 => by omega⟩
      · rw [if_neg hsv] at h
        obtain ⟨h1, h2, h3, h4⟩ := ih _ _ _ _ j (by omega) h
        refine ⟨by omega, h2, h3, ?_⟩
        intro k hk1 hk2
        rcases Nat.eq_or_lt_of_le hk1 with rfl | hlt
        · omega
        · exact h4 k (by omega) hk2
    · rw [if_neg hih] at h
      cases h

/-- Length preservation: `constructTrie` preserves the length of the value vector. -/
theorem constructTrie_vals_length (e1 : Nat) :
    ∀ (p : List Bool) (lo hi : Nat) (vals : List Nat) (L : Table),
    (constructTrie e1 p lo hi vals L).1.length = vals.length := by
  induction e1 with
  | zero => intro p lo hi vals L; rfl
  | succ e ih =>
    intro p lo hi vals L
    simp only [constructTrie]
    split
    · rw [ih]
      split
      · rw [ih]
        exact stripLoop_length _ _ _ _ _ _
      · exact stripLoop_length _ _ _ _ _ _
    · split
      · rw [ih]
        exact stripLoop_length _ _ _ _ _ _
      · exact stripLoop_length _ _ _ _ _ _

/-- Frame property: `constructTrie` does not touch value entries outside its window. -/
theorem constructTrie_frame (e1 : Nat) :
    ∀ (p : List Bool) (lo hi : Nat) (vals : List Nat) (L : Table) (j : Nat),
    j < lo ∨ hi < j →
    (constructTrie e1 p lo hi vals L).1.getD j 0 = vals.getD j 0 := by
  induction e1 with
  | zero => intro p lo hi vals L j _; rfl
  | succ e ih =>
    intro p lo hi vals L j hj
    simp only [constructTrie]
    have hstrip : ∀ fo : Option Nat,
        (stripLoop (hi + 1 - lo) vals (2 ^ e) lo hi fo).1.getD j 0 = vals.getD j 0 :=
      fun fo => stripLoop_frame _ _ _ _ _ _ j hj
    by_cases hR : splitIndexOf (stripAt e lo hi vals).2 hi ≤ hi
    · rw [if_pos hR]
      have hsi : lo ≤ splitIndexOf (stripAt e lo hi vals).2 hi := by
        rw [splitIndexOf]
        cases hf : (stripAt e lo hi vals).2 with
        | none =>
          rw [splitIndexOf, hf] at hR
          simp only [Option.getD_none] at hR ⊢
          omega
        | some i =>
          obtain ⟨h1, h2, h3, h4⟩ :=
            stripLoop_found_some (hi + 1 - lo) vals (2 ^ e) lo hi i le_rfl hf
          simpa using h1
      have hsi1 : splitIndexOf (stripAt e lo hi vals).2 hi - 1 ≤ hi :=
        le_trans (Nat.sub_le _ _) hR
      rw [ih _ _ _ _ _ j (by omega)]
      split
      · rw [ih _ _ _ _ _ j (by omega)]
        exact hstrip none
      · exact hstrip none
    · rw [if_neg hR]
      have hsieq : splitIndexOf (stripAt e lo hi vals).2 hi = hi + 1 := by
        cases hf : (stripAt e lo hi vals).2 with
        | none => simp [splitIndexOf]
        | some i =>
          exfalso
          apply hR
          obtain ⟨h1, h2, h3, h4⟩ :=
            stripLoop_found_some (hi + 1 - lo) vals (2 ^ e) lo hi i le_rfl hf
          rw [splitIndexOf, hf]
          simpa using h2
      rw [hsieq]
      split
      · rw [ih _ _ _ _ _ j (by omega)]
        exact hstrip none
      · exact hstrip none

/-- The splitter yields at least one representative for non-empty input. -/
theorem split_ne_nil (d : Nat) (values : List Nat) (hne : values ≠ []) :
    split d values ≠ [] := by
  have hn1 : 1 ≤ values.length := List.length_pos.mpr hne
  by_cases hmod : values.length % d = 0
  · have hd : 1 ≤ d := by
      rcases Nat.eq_zero_or_pos d with h0 | h1
      · rw [h0, Nat.mod_zero] at hmod
        omega
      · exact h1
    have hdn : d ≤ values.length := by
      by_contra hlt
      rw [Nat.mod_eq_of_lt (by omega)] at hmod
      omega
    rw [split, if_neg (by omega), List.append_nil]
    have hcast : ((d : Int) - 1) = (((d - 1 : Nat)) : Int) := by omega
    rw [hcast]
    cases hfu : values.length with
    | zero => omega
    | succ m =>
      rw [splitLoop, if_pos ⟨by exact_mod_cast Nat.zero_le (d - 1), by
        exact_mod_cast (by omega : d - 1 < values.length)⟩]
      simp
  · rw [split, if_pos hmod]
    simp

/-- Every representative value of the splitter output is an input value
(at an index below the input length). -/
theorem split_fst_index (d : Nat) (values : List Nat) :
    ∀ y ∈ (split d values).map Prod.fst,
      ∃ k, k < values.length ∧ y = values.getD k 0 := by
  intro y hy
  rw [split, List.map_append] at hy
  rcases List.mem_append.mp hy with h1 | h2
  · obtain ⟨x, hx, hxy⟩ := List.mem_map.mp h1
    rcases Int.le_or_lt 0 ((d : Int) - 1) with hpos | hneg
    · have hcast : ((d : Int) - 1) = (((d - 1 : Nat)) : Int) := by omega
      rw [hcast] at hx
      obtain ⟨k, hk1, hk2, hk3, hk4⟩ :=
        splitLoop_entries d values values.length (d - 1) x hx
      refine ⟨k, hk2, ?_⟩
      rw [← hxy, hk4]
    · exfalso
      cases hfu : values.length with
      | zero =>
        rw [hfu] at hx
        simp [splitLoop] at hx
      | succ m =>
        rw [hfu, splitLoop, if_neg (by omega)] at hx
        simp at hx
  · by_cases hmod : values.length % d = 0
    · rw [if_neg (by omega)] at h2
      simp at h2
    · rw [if_pos hmod] at h2
      have hn0 : values.length ≠ 0 := by
        intro h
        rw [h, Nat.zero_mod] at hmod
        exact hmod rfl
      have hvne : values ≠ [] := by
        intro h
        rw [h] at hn0
        exact hn0 rfl
      simp only [List.map_cons, List.map_nil, List.mem_singleton] at h2
      refine ⟨values.length - 1, by omega, ?_⟩
      rw [h2, getLastD_eq_getD values 0 hvne]

/-- The reachable calls of the trie construction recursion, exactly as the
constructor issues them: the initial call on the full representative
range with `exponent = depth` (`e1 = depth + 1`), and for every reached
inner call its left/right child calls with the guards and the threaded
value vector and table of `constructTrie`. -/
inductive TrieCall (values : List Nat) :
    Nat → List Bool → Nat → Nat → List Nat → Table → Prop where
  | init :
      TrieCall values (calcDepth values + 1) [] 0
        ((split (calcDepth values) values).length - 1)
        ((split (calcDepth values) values).map Prod.fst) []
  | left (e : Nat) (p : List Bool) (lo hi : Nat) (vals : List Nat) (L : Table) :
      TrieCall values (e + 1) p lo hi vals L →
      lo < splitIndexOf (stripAt e lo hi vals).2 hi →
      TrieCall values e (p ++ [false]) lo
        (splitIndexOf (stripAt e lo hi vals).2 hi - 1) (stripAt e lo hi vals).1
        ((p, some (splitNodeOf (stripAt e lo hi vals).2 lo hi)) :: L)
  | right (e : Nat) (p : List Bool) (lo hi : Nat) (vals : List Nat) (L : Table) :
      TrieCall values (e + 1) p lo hi vals L →
      splitIndexOf (stripAt e lo hi vals).2 hi ≤ hi →
      TrieCall values e (p ++ [true]) (splitIndexOf (stripAt e lo hi vals).2 hi) hi
        (if lo < splitIndexOf (stripAt e lo hi vals).2 hi then
          (constructTrie e (p ++ [false]) lo
            (splitIndexOf (stripAt e lo hi vals).2 hi - 1) (stripAt e lo hi vals).1
            ((p, some (splitNodeOf (stripAt e lo hi vals).2 lo hi)) :: L)).1
        else (stripAt e lo hi vals).1)
        (if lo < splitIndexOf (stripAt e lo hi vals).2 hi then
          (constructTrie e (p ++ [false]) lo
            (splitIndexOf (stripAt e lo hi vals).2 hi - 1) (stripAt e lo hi vals).1
            ((p, some (splitNodeOf (stripAt e lo hi vals).2 lo hi)) :: L)).2
        else ((p, some (splitNodeOf (stripAt e lo hi vals).2 lo hi)) :: L))

/-- The splitter output for `depth = 0` (which a maximum key of 1
produces): the loop index starts at `-1`, so only the irregular
representative is created. -/
theorem split_zero (values : List Nat) (hne : values ≠ []) :
    split 0 values = [(values.getLastD 0,
      constructBST (values.length - 1) (values.length % 0) values)] := by
  have hn1 : 1 ≤ values.length := List.length_pos.mpr hne
  rw [split]
  have hmod : values.length % 0 ≠ 0 := by
    rw [Nat.mod_zero]
    omega
  rw [if_pos hmod]
  cases hfu : values.length with
  | zero => omega
  | succ m =>
    rw [splitLoop, if_neg (by intro h; have := h.1; omega)]
    rw [List.nil_append]

/-- Representative values are pairwise strictly increasing, for every
depth (the `depth = 0` case produces a single representative). -/
theorem split_fst_pairwise' (d : Nat) (values : List Nat) (hne : values ≠ [])
    (hs : values.Sorted (· < ·)) :
    ((split d values).map Prod.fst).Pairwise (· < ·) := by
  rcases Nat.eq_zero_or_pos d with rfl | hd
  · rw [split_zero values hne]
    simp
  · exact split_fst_pairwise d values hd hs

/-- Invariant of every reachable `constructTrie` call (for sorted
non-empty input): its window is non-empty, within the value vector, holds
strictly increasing values, and all of them are below `2 ^ e1` (the bits
at and above the current exponent have been stripped by the ancestors). -/
theorem trieCall_inv (values : List Nat) (hs : values.Sorted (· < ·))
    (hne : values ≠ []) {e1 : Nat} {p : List Bool} {lo hi : Nat}
    {vals : List Nat} {L : Table}
    (hcall : TrieCall values e1 p lo hi vals L) :
    lo ≤ hi ∧ hi < vals.length ∧
    (∀ a b, lo ≤ a → a < b → b ≤ hi → vals.getD a 0 < vals.getD b 0) ∧
    (∀ a, lo ≤ a → a ≤ hi → vals.getD a 0 < 2 ^ e1) := by
  induction hcall with
  | init =>
    have hpos : 0 < (split (calcDepth values) values).length :=
      List.length_pos.mpr (split_ne_nil (calcDepth values) values hne)
    have hlen : ((split (calcDepth values) values).map Prod.fst).length
        = (split (calcDepth values) values).length := List.length_map _ _
    have hp : ((split (calcDepth values) values).map Prod.fst).Pairwise (· < ·) :=
      split_fst_pairwise' (calcDepth values) values hne hs
    have hn1 : 1 ≤ values.length := List.length_pos.mpr hne
    refine ⟨Nat.zero_le _, by omega, ?_, ?_⟩
    · intro a b ha hab hb
      exact sorted_getD_lt _ hp a b hab (by omega)
    · intro a _ ha
      have haa : a < ((split (calcDepth values) values).map Prod.fst).length := by
        omega
      have hmem : ((split (calcDepth values) values).map Prod.fst).getD a 0
          ∈ (split (calcDepth values) values).map Prod.fst := by
        rw [List.getD_eq_getElem?_getD, List.getElem?_eq_getElem haa]
        exact List.getElem_mem haa
      obtain ⟨k, hk, hkv⟩ := split_fst_index (calcDepth values) values _ hmem
      rw [hkv]
      calc values.getD k 0
          ≤ values.getD (values.length - 1) 0 :=
            sorted_getD_le values hs k (values.length - 1) (by omega) (by omega)
        _ = values.getLastD 0 := (getLastD_eq_getD values 0 hne).symm
        _ < 2 ^ (Nat.log2 (values.getLastD 0) + 1) := Nat.lt_log2_self
        _ = 2 ^ (calcDepth values + 1) := by rw [calcDepth_eq]
  | left e p lo hi vals L hprev hguard ih =>
    obtain ⟨hlh, hhl, hsort, hbound⟩ := ih
    have hunch : ∀ j, lo ≤ j → j ≤ hi → vals.getD j 0 < 2 ^ e →
        (stripAt e lo hi vals).1.getD j 0 = vals.getD j 0 := by
      intro j h1 h2 h3
      rw [stripAt, stripLoop_window _ _ _ _ _ _ le_rfl j h1 h2, if_neg (by omega)]
    have hslen : (stripAt e lo hi vals).1.length = vals.length :=
      stripLoop_length _ _ _ _ _ _
    have hsi2 : splitIndexOf (stripAt e lo hi vals).2 hi - 1 ≤ hi := by
      cases hf : (stripAt e lo hi vals).2 with
      | none => simp [splitIndexOf]
      | some i =>
        obtain ⟨h1, h2, h3, h4⟩ :=
          stripLoop_found_some (hi + 1 - lo) vals (2 ^ e) lo hi i le_rfl hf
        simp only [splitIndexOf, Option.getD_some]
        omega
    have hbelow : ∀ k, lo ≤ k → k ≤ splitIndexOf (stripAt e lo hi vals).2 hi - 1 →
        vals.getD k 0 < 2 ^ e := by
      cases hf : (stripAt e lo hi vals).2 with
      | none =>
        intro k hk1 hk2
        simp only [splitIndexOf, Option.getD_none] at hk2
        exact (stripLoop_found_none (hi + 1 - lo) vals (2 ^ e) lo hi le_rfl).mp hf
          k hk1 (by omega)
      | some i =>
        intro k hk1 hk2
        rw [hf] at hguard
        simp only [splitIndexOf, Option.getD_some] at hguard hk2
        obtain ⟨h1, h2, h3, h4⟩ :=
          stripLoop_found_some (hi + 1 - lo) vals (2 ^ e) lo hi i le_rfl hf
        exact h4 k hk1 (by omega)
    have hlow : ∀ j, lo ≤ j → j ≤ splitIndexOf (stripAt e lo hi vals).2 hi - 1 →
        (stripAt e lo hi vals).1.getD j 0 = vals.getD j 0 := by
      intro j h1 h2
      exact hunch j h1 (by omega) (hbelow j h1 h2)
    have hA : lo ≤ splitIndexOf (stripAt e lo hi vals).2 hi - 1 := by
      cases hf : (stripAt e lo hi vals).2 with
      | none =>
        simp only [splitIndexOf, Option.getD_none]
        omega
      | some i =>
        rw [hf] at hguard
        simp only [splitIndexOf, Option.getD_some] at hguard ⊢
        omega
    refine ⟨hA, ?_, ?_, ?_⟩
    · rw [hslen]
      omega
    · intro a b ha hab hb
      rw [hlow a ha (by omega), hlow b (by omega) hb]
      exact hsort a b ha hab (by omega)
    · intro a ha hab
      rw [hlow a ha hab]
      exact hbelow a ha hab
  | right e p lo hi vals L hprev hguard ih =>
    obtain ⟨hlh, hhl, hsort, hbound⟩ := ih
    have hslen : (stripAt e lo hi vals).1.length = vals.length :=
      stripLoop_length _ _ _ _ _ _
    obtain ⟨i, hf⟩ : ∃ i, (stripAt e lo hi vals).2 = some i := by
      cases hf : (stripAt e lo hi vals).2 with
      | none =>
        exfalso
        rw [hf] at hguard
        simp only [splitIndexOf, Option.getD_none] at hguard
        omega
      | some i => exact ⟨i, rfl⟩
    rw [hf] at hguard ⊢
    simp only [splitIndexOf, Option.getD_some] at hguard ⊢
    obtain ⟨h1, h2, h3, h4⟩ :=
      stripLoop_found_some (hi + 1 - lo) vals (2 ^ e) lo hi i le_rfl hf
    have hmono : ∀ j, i ≤ j → j ≤ hi → 2 ^ e ≤ vals.getD j 0 := by
      intro j hj1 hj2
      rcases Nat.eq_or_lt_of_le hj1 with rfl | hlt
      · exact h3
      · exact le_trans h3 (le_of_lt (hsort i j h1 hlt hj2))
    have hval2 : ∀ j, i ≤ j → j ≤ hi →
        (if lo < i then
          (constructTrie e (p ++ [false]) lo (i - 1) (stripAt e lo hi vals).1
            ((p, some (splitNodeOf (some i) lo hi)) :: L)).1
        else (stripAt e lo hi vals).1).getD j 0 = vals.getD j 0 - 2 ^ e := by
      intro j hj1 hj2
      have hstep1 : (if lo < i then
          (constructTrie e (p ++ [false]) lo (i - 1) (stripAt e lo hi vals).1
            ((p, some (splitNodeOf (some i) lo hi)) :: L)).1
        else (stripAt e lo hi vals).1).getD j 0
          = (stripAt e lo hi vals).1.getD j 0 := by
        split
        · exact constructTrie_frame e _ _ _ _ _ j (Or.inr (by omega))
        · rfl
      rw [hstep1, stripAt,
        stripLoop_window _ _ _ _ _ _ le_rfl j (by omega) hj2,
        if_pos (hmono j hj1 hj2)]
    have hlen2 : (if lo < i then
        (constructTrie e (p ++ [false]) lo (i - 1) (stripAt e lo hi vals).1
          ((p, some (splitNodeOf (some i) lo hi)) :: L)).1
      else (stripAt e lo hi vals).1).length = vals.length := by
      split
      · rw [constructTrie_vals_length]
        exact hslen
      · exact hslen
    refine ⟨hguard, ?_, ?_, ?_⟩
    · rw [hlen2]
      omega
    · intro a b ha hab hb
      rw [hval2 a ha (by omega), hval2 b (by omega) hb]
      have hab2 := hsort a b (by omega) hab (by omega)
      have has := hmono a ha (by omega)
      omega
    · intro a ha hab
      rw [hval2 a ha hab]
      have hb := hbound a (by omega) (by omega)
      have has := hmono a ha hab
      rw [pow_succ] at hb
      omega

/-- C7: at every reachable leaf step of trie construction
(`exponent = -1`, i.e. `e1 = 0`) for sorted non-empty input, exactly one
representative remains in the window (`lo = hi`), and the `Leaf` inserted
at the path references the representative selected by the path's final
bit — `"0"` picks `lo`'s representative, `"1"` picks `hi`'s — which, the
window being a singleton, is exactly the representative the code stores
(the C++ comparison `bitHistory.compare(bitHistory.size(), 1, "0")`
degenerates to always picking `rightRange`, but on singleton windows both
selections coincide). -/
theorem claim_C7 (values : List Nat) (hs : values.Sorted (· < ·))
    (hne : values ≠ []) (p : List Bool) (lo hi : Nat) (vals : List Nat)
    (L : Table) (hcall : TrieCall values 0 p lo hi vals L) :
    lo = hi ∧
    (constructTrie 0 p lo hi vals L).2
      = (p, some (TrieNode.leaf
          (if p.getLast? = some false then lo else hi))) :: L := by
  obtain ⟨hlh, hhl, hsort, hbound⟩ := trieCall_inv values hs hne hcall
  have hlohi : lo = hi := by
    by_contra hneq
    have hlt : lo < hi := by omega
    have h1 := hsort lo hi le_rfl hlt le_rfl
    have h2 := hbound lo le_rfl (by omega)
    have h3 := hbound hi (by omega) le_rfl
    rw [pow_zero] at h2 h3
    omega
  subst hlohi
  refine ⟨rfl, ?_⟩
  rw [constructTrie]
  simp

/-- Witness for C7: the concrete input `[2,3]` (depth 1) reaches the leaf
call at path `"10"` with the singleton window `[0,0]` through one right
and one left descent from the initial call. -/
theorem claim_C7_witness :
    (0 : Nat) = 0 ∧
    (constructTrie 0 [true, false] 0 0 [0, 0]
        [([true], some (TrieNode.split (some 0) (some 1))),
         ([], some (TrieNode.split none (some 0)))]).2
      = ([true, false], some (TrieNode.leaf
          (if ([true, false] : List Bool).getLast? = some false then 0 else 0))) ::
        [([true], some (TrieNode.split (some 0) (some 1))),
         ([], some (TrieNode.split none (some 0)))] :=
  claim_C7 [2, 3] (by decide) (by decide) [true, false] 0 0 [0, 0]
    [([true], some (TrieNode.split (some 0) (some 1))),
     ([], some (TrieNode.split none (some 0)))]
    (TrieCall.left 0 [true] 0 1 [0, 1]
      [([], some (TrieNode.split none (some 0)))]
      (TrieCall.right 1 [] 0 1 [2, 3] [] TrieCall.init (by decide)) (by decide))
